import Mathlib

/-!
Shallow embedding of the laser_message repository (src/huffman_code.rs and
src/lasers.rs) and proofs about its claimed properties.

Modelling conventions, stated once here:

* Rust `u32` arithmetic is modelled on `Nat` with an explicit `% 2^32` at every
  operation that can wrap (`u32add`, `u32shl`); `i32` frequencies are modelled
  on `Int` with the two's-complement wrap `i32add` (release-mode wrapping
  semantics).
* `Option<Box<Node>>` (the `Link` type alias of the source) is the mutual
  inductive `Link` below; `HashMap` values that the code only ever reads back
  through `get`/lookup are modelled as association lists (`List (Char x _)`)
  with insertion at the end and first-match lookup, a deterministic stand-in
  for Rust's unspecified hash iteration order.
* `BinaryHeap` with the reversed `Ord` of the source is a min-heap; it is
  modelled as a list from which `popMin` removes the first element of minimal
  frequency (ties between equal frequencies are implementation-defined in the
  source, determinized here to first-in-list).
* Code bit-strings (`String` of '0'/'1' characters in the source, produced by
  `assign_codes` and consumed through `to_digit(10)`) are modelled directly as
  `List Nat` of 0/1 values.
* Rust panics (`expect`, empty-heap pops, a symbol missing from the code
  table) are modelled as `Option.none` results.
* The `f32` fidelity ratio of `validate` is modelled as `Option Rat`:
  `Option.some q` is the exact rational value and `Option.none` is the NaN
  produced by `0.0 / 0.0`; the comparison `NaN < 0.005` is `false` in IEEE
  semantics, which the model reproduces.  The claims proved below only touch
  this computation where it is exact (`error = 0` or NaN), so idealizing the
  remaining f32 rounding to rationals is harmless.
* The infinite blocking edge-event iterators of `gpiocdev` are modelled as
  lists of events per `edge_events()` call, and the unbounded `loop` of
  `detect_message` runs on explicit fuel counting outer-loop iterations
  (`Option.none` = still looping when the fuel runs out).
-/

/-! ## Machine integer helpers -/

/-- 2^32, the `u32` modulus. -/
def U32MOD : Nat := 4294967296

/-- Wrapping `u32` addition. -/
def u32add (a b : Nat) : Nat := (a + b) % U32MOD

/-- Rust `a << n` on `u32`: bits shifted out of the top are discarded. -/
def u32shl (a n : Nat) : Nat := (a <<< n) % U32MOD

/-- Two's-complement wrap of an integer into the `i32` range. -/
def wrap32 (x : Int) : Int := (x + 2147483648) % 4294967296 - 2147483648

/-- Wrapping `i32` addition (release-mode Rust semantics). -/
def i32add (a b : Int) : Int := wrap32 (a + b)

/-! ## Data model: `Node` and `Link` from huffman_code.rs -/

mutual
/-- `struct Node { freq: i32, char: Option<char>, right: Link, left: Link }`. -/
inductive Node : Type where
  | mk (freq : Int) (ch : Option Char) (left : Link) (right : Link)
/-- `type Link = Option<Box<Node>>`. -/
inductive Link : Type where
  | nil : Link
  | node (n : Node) : Link
end

/-- Field accessor for `Node.freq`. -/
def Node.freq : Node → Int
  | .mk f _ _ _ => f

/-- Field accessor for `Node.char`. -/
def Node.char : Node → Option Char
  | .mk _ c _ _ => c

/-- Field accessor for `Node.left`. -/
def Node.left : Node → Link
  | .mk _ _ l _ => l

/-- Field accessor for `Node.right`. -/
def Node.right : Node → Link
  | .mk _ _ _ r => r

/-- `pub struct HuffTree { root: Link, padding: usize }`. -/
structure HuffTree where
  root : Link
  padding : Nat

/-- `HuffTree::new()`. -/
def HuffTree.new : HuffTree := ⟨Link.nil, 0⟩

/-! ## Frequency analysis: `HuffTree::create_frequency_map` -/

/-- One step of the frequency loop: `*frequency_map.entry(char).or_insert(0) += 1`,
with the `HashMap` determinized to an association list in first-occurrence order. -/
def incrementChar : List (Char × Int) → Char → List (Char × Int)
  | [], c => [(c, i32add 0 1)]
  | (c0, n) :: rest, c =>
    if c = c0 then (c0, i32add n 1) :: rest else (c0, n) :: incrementChar rest c

/-- `HuffTree::create_frequency_map`. -/
def create_frequency_map (message : List Char) : List (Char × Int) :=
  message.foldl incrementChar []

/-! ## Tree building: `HuffTree::build_tree` -/

/-- `BinaryHeap::pop` for the reversed `Ord` of the source (a min-heap on `freq`):
removes the first element of minimal frequency.  The order among equal
frequencies is unspecified in Rust; this model prefers the earlier element. -/
def popMin : List Node → Option (Node × List Node)
  | [] => none
  | n :: rest =>
    match popMin rest with
    | none => some (n, [])
    | some (m, rest2) =>
      if n.freq ≤ m.freq then some (n, rest) else some (m, n :: rest2)

/-- The `while node_heap.len() > 1` loop of `build_tree`: pop the two
lowest-frequency nodes `node1` then `node2` and push
`Node { freq: node1.freq + node2.freq, char: None, left: node1, right: node2 }`.
Each iteration shrinks the heap by one, so `heap.length` steps of fuel always
suffice (`build_loop` below supplies them); the `expect` calls of the source
cannot fire under the loop guard and are modelled by returning the heap
unchanged in those unreachable branches. -/
def build_loop_fuel : Nat → List Node → List Node
  | 0, heap => heap
  | fuel + 1, heap =>
    if 1 < heap.length then
      match popMin heap with
      | none => heap
      | some (n1, rest1) =>
        match popMin rest1 with
        | none => heap
        | some (n2, rest2) =>
          build_loop_fuel fuel
            (Node.mk (i32add n1.freq n2.freq) none (Link.node n1) (Link.node n2) :: rest2)
    else heap

/-- The merge loop of `build_tree` run to completion. -/
def build_loop (heap : List Node) : List Node :=
  build_loop_fuel heap.length heap

/-- `HuffTree::build_tree`: seed the heap with one leaf per frequency-map entry,
merge until one node remains, and pop it as the root.  The final
`pop().expect("Tree has root.")` panic on an empty map is modelled as `none`
(the source's trailing `assert!(node_heap.is_empty())` always holds because the
loop leaves at most one node). -/
def build_tree (fm : List (Char × Int)) : Option Node :=
  match popMin (build_loop (fm.map fun cf => Node.mk cf.2 (some cf.1) Link.nil Link.nil)) with
  | none => none
  | some (r, _) => some r

/-! ## Code assignment: `HuffTree::assign_codes` -/

/-- `HuffTree::assign_codes`: at a node holding a character insert the
accumulated path (`HashMap::insert`, modelled as appending to the association
list — every character occurs at most once in a built tree); otherwise recurse
left with the path extended by 0 and right with the path extended by 1. -/
def assign_codes (t : Node) (code_map : List (Char × List Nat)) (s : List Nat) :
    List (Char × List Nat) :=
  match t with
  | .mk _ (some c) _ _ => code_map ++ [(c, s)]
  | .mk _ none l r =>
    let m1 := match l with
      | .node lt => assign_codes lt code_map (s ++ [0])
      | .nil => code_map
    match r with
    | .node rt => assign_codes rt m1 (s ++ [1])
    | .nil => m1

/-- `HashMap::get` on the association-list model: first matching key. -/
def mapGet (m : List (Char × List Nat)) (c : Char) : Option (List Nat) :=
  (m.find? fun e => e.1 == c).map fun e => e.2

/-! ## Encoding: `HuffTree::encode_string` / `HuffTree::encode` -/

/-- The inner `for bit in code.chars()` loop of `encode_string`: push each bit,
add `bit << byte_index` into the wrapping `u32` checksum, and step `byte_index`
cyclically through 0..7. -/
def pushBits : List Nat → List Nat → Nat → Nat → List Nat × Nat × Nat
  | [], acc, ck, bi => (acc, ck, bi)
  | b :: bs, acc, ck, bi =>
    pushBits bs (acc ++ [b]) (u32add ck (u32shl b bi)) (if bi = 7 then 0 else bi + 1)

/-- The outer `for char in message.chars()` loop of `encode_string`:
`char_code_map.get(&char).expect("All message chars in map.")` is modelled as
`none` on a missing character. -/
def encodeBits : List Char → List (Char × List Nat) → List Nat → Nat → Nat →
    Option (List Nat × Nat × Nat)
  | [], _, acc, ck, bi => some (acc, ck, bi)
  | c :: rest, cm, acc, ck, bi =>
    match mapGet cm c with
    | none => none
    | some code =>
      match pushBits code acc ck bi with
      | (acc2, ck2, bi2) => encodeBits rest cm acc2 ck2 bi2

/-- `(0..32).map(|n| (checksum >> n) & 1).collect()`: the 32 checksum bits,
least-significant bit first. -/
def checkVec (ck : Nat) : List Nat :=
  (List.range 32).map fun n => (ck >>> n) &&& 1

/-- `HuffTree::encode_string`: returns the complete stream together with the
`padding` value the source stores on `self`. -/
def encode_string (message : List Char) (cm : List (Char × List Nat)) :
    Option (List Nat × Nat) :=
  match encodeBits message cm [] 0 0 with
  | none => none
  | some (bits, ck, _) =>
    let padding := 8 - bits.length % 8
    some (bits ++ List.replicate padding 0 ++ checkVec ck, padding)

/-- `HuffTree::encode`: build the tree from the message's frequency map, store
it as `self.root`, derive the code table and encode.  The updated session
object is returned alongside the stream; panics are modelled as `none`. -/
def HuffTree.encode (_t : HuffTree) (message : List Char) :
    Option (HuffTree × List Nat) :=
  match build_tree (create_frequency_map message) with
  | none => none
  | some root =>
    match encode_string message (assign_codes root [] []) with
    | none => none
    | some (stream, padding) => some (⟨Link.node root, padding⟩, stream)

/-! ## Validation: `HuffTree::validate` -/

/-- The inner fold of `validate`'s sum: `(0..8).fold(0, |bit, j| bit + (data[i+j] << j))`.
Out-of-range indexing (a Rust panic) cannot occur for the lengths `validate`
passes, so `List.getD _ _ 0` is a safe total model. -/
def windowSum (data : List Nat) (i : Nat) : Nat :=
  (List.range 8).foldl (fun acc j => u32add acc (u32shl (data.getD (i + j) 0) j)) 0

/-- The indices `(0..stop).step_by(8)`. -/
def stepIdx (stop : Nat) : List Nat :=
  (List.range ((stop + 7) / 8)).map (· * 8)

/-- The outer fold of `validate`'s sum over 8-bit windows of the payload. -/
def sumWindows (data : List Nat) (stop : Nat) : Nat :=
  (stepIdx stop).foldl (fun acc i => u32add acc (windowSum data i)) 0

/-- `data[data_len - 32..].iter().enumerate().fold(0, |acc, (i, bit)| acc + (*bit << i))`. -/
def checkFold : List Nat → Nat → Nat → Nat
  | [], _, acc => acc
  | b :: bs, i, acc => checkFold bs (i + 1) (u32add acc (u32shl b i))

/-- `HuffTree::validate`.  The `f32` error is an `Option Rat`: `none` is the NaN
from `1.0 - 0.0/0.0` when both sums are zero (the source has no branch for it;
the IEEE comparison `NaN < 0.005` is false, so `valid` is `false` there).
`1/200` is the idealized `0.005f32` threshold; the claims below only use this
comparison where the two sums are equal or one is zero, where the f32 and
rational computations agree exactly. -/
def validate (data : List Nat) : Bool × Option Rat :=
  if data.length < 40 then (false, some 0)
  else
    let sum := sumWindows data (data.length - 32)
    let check := checkFold (data.drop (data.length - 32)) 0 0
    if sum = 0 ∧ check = 0 then (false, none)
    else
      let error : Rat := 1 - (min sum check : Rat) / (max sum check : Rat)
      (decide (error < 1 / 200), some error)

/-! ## Decoding: `HuffTree::decode_string` / `HuffTree::decode` -/

/-- One move of the decode traversal: bit 0 goes to the left child if present,
any other bit to the right child if present; a missing child leaves the
position unchanged (the source's `if let Some(...)` simply does not reassign
`node`). -/
def moveBit (node : Node) (bit : Nat) : Node :=
  if bit = 0 then
    match node.left with
    | .node l => l
    | .nil => node
  else
    match node.right with
    | .node r => r
    | .nil => node

/-- The `for bit in encoded_message` loop of `decode_string`: after each move,
if the current node holds a character, emit it and reset to the root. -/
def decodeAux (root : Node) : Node → List Nat → List Char
  | _, [] => []
  | node, bit :: rest =>
    match (moveBit node bit).char with
    | some c => c :: decodeAux root root rest
    | none => decodeAux root (moveBit node bit) rest

/-- `HuffTree::decode_string` for a session whose tree has a root. -/
def decode_string (root : Node) (bits : List Nat) : List Char :=
  decodeAux root root bits

/-- The two `format!` outcomes of `HuffTree::decode`, with the presentational
string formatting abstracted to a structured result carrying the same data. -/
inductive DecodeResult : Type where
  | invalid (error : Option Rat)
  | validated (msg : List Char) (error : Option Rat)
deriving DecidableEq

/-- `HuffTree::decode`: validate, and on success strip the checksum and padding
(`&encoded_message[0..len - (32 + self.padding)]`, a saturating model of the
usize subtraction, exact whenever `len ≥ 32 + padding` as in every claim below)
and decode by tree traversal.  `none` models the `expect("Tree has root.")`
panic of `decode_string` on a rootless session. -/
def HuffTree.decode (t : HuffTree) (data : List Nat) : Option DecodeResult :=
  match validate data with
  | (valid, error) =>
    if valid then
      match t.root with
      | Link.nil => none
      | Link.node root =>
        some (.validated (decode_string root (data.take (data.length - (32 + t.padding)))) error)
    else some (.invalid error)

/-! ## Structural predicates used by the theorems -/

/-- Lift a predicate on nodes to `Link`. -/
def linkAll (P : Node → Prop) : Link → Prop
  | .nil => True
  | .node n => P n

/-- Well-formedness of every tree `build_tree` produces: a node either holds a
character, or holds none and has both children, themselves well-formed. -/
def wfN : Node → Prop
  | .mk _ (some _) _ _ => True
  | .mk _ none (.node a) (.node b) => wfN a ∧ wfN b
  | .mk _ none _ _ => False

/-- The shape claimed in C8: every internal node of a built tree has exactly the
two popped children with `left.freq ≤ right.freq` and carries the (wrapping)
sum of their frequencies. -/
def goodNode : Node → Prop
  | .mk _ (some _) _ _ => True
  | .mk f none (.node a) (.node b) =>
    a.freq ≤ b.freq ∧ f = i32add a.freq b.freq ∧ goodNode a ∧ goodNode b
  | .mk _ none _ _ => False

/-- `CodePath t c p`: following the bits of `p` from `t` (0 = left, 1 = right)
reaches a node holding character `c`, and the traversal stops there — exactly
the paths `assign_codes` records. -/
inductive CodePath : Node → Char → List Nat → Prop where
  | here (f : Int) (c : Char) (l r : Link) : CodePath (Node.mk f (some c) l r) c []
  | left (f : Int) (n : Node) (r : Link) (c : Char) (p : List Nat) :
      CodePath n c p → CodePath (Node.mk f none (Link.node n) r) c (0 :: p)
  | right (f : Int) (l : Link) (n : Node) (c : Char) (p : List Nat) :
      CodePath n c p → CodePath (Node.mk f none l (Link.node n)) c (1 :: p)

/-! ## Weighted-bit-sum specification functions -/

/-- Specification value of the rolling checksum: bit `b` at overall position `k`
weighs `b * 2 ^ (k % 8)` (the source's `byte_index` cycles 0..7). -/
def wseq : List Nat → Nat → Nat
  | [], _ => 0
  | b :: bs, k => b * 2 ^ (k % 8) + wseq bs (k + 1)

/-- Specification value of the trailing checksum fold: bit `b` at index `i`
weighs `b * 2 ^ i`. -/
def wpow : List Nat → Nat → Nat
  | [], _ => 0
  | b :: bs, i => b * 2 ^ i + wpow bs (i + 1)

/-- Weighted prefix sum by index, reading `data` through `getD` the way
`validate` does: `wgetd data L` is the specification value of the payload sum
over the first `L` bits. -/
def wgetd (data : List Nat) : Nat → Nat
  | 0 => 0
  | k + 1 => wgetd data k + data.getD k 0 * 2 ^ (k % 8)

/-! ## Claim C10's specification of `decode_string`, written from the claim -/

/-- One step of the traversal as the claim describes it: move toward the bit's
child, staying put when that child does not exist; emit a symbol exactly when
the node after the move holds a character, then reset to the root. -/
def decodeStepSpec (root : Node) (st : Node × List Char) (bit : Nat) :
    Node × List Char :=
  let moved :=
    if bit = 0 then
      match st.1.left with
      | Link.node l => l
      | Link.nil => st.1
    else
      match st.1.right with
      | Link.node r => r
      | Link.nil => st.1
  match moved.char with
  | some c => (root, st.2 ++ [c])
  | none => (moved, st.2)

/-- The claim's description of `decode_string` as a fold over the bit list. -/
def decode_string_spec (root : Node) (bits : List Nat) : List Char :=
  (bits.foldl (decodeStepSpec root) (root, [])).2

/-! ## Pulse decoding: `Receiver` from lasers.rs -/

/-- One element of the `edge_events()` iterator: `Ok(event)` carries
`event.timestamp_ns` (a `u64`), `Err(_)` a malformed reading. -/
inductive EdgeEvent : Type where
  | ok (timestamp_ns : Nat)
  | err

/-- Outcome of one run of the inner `for event in events` loop of
`Receiver::detect_message`. -/
inductive InnerOutcome : Type where
  | broke
  | ended

/-- The inner `for` loop of `detect_message`: durations `0..=400` and `901..`
are skipped (`continue`), a duration in `401..=900` fires `break`, and an
`Err` event falls through to the next iteration. -/
def detectInner : List EdgeEvent → InnerOutcome
  | [] => .ended
  | .ok t :: rest =>
    if 401 ≤ t ∧ t ≤ 900 then .broke else detectInner rest
  | .err :: rest => detectInner rest

/-- `Receiver::detect_message`.  `streams i` is the event list produced by the
`i`-th call to `self.in_.edge_events()`; `fuel` bounds the number of outer
`loop` iterations, and `some ()` would mean the function returned within that
many iterations.  The source's `break` exits only the inner `for` loop; the
outer `loop` has no `break` or `return`, so both inner outcomes fall through to
the next outer iteration. -/
def detect_message (streams : Nat → List EdgeEvent) : Nat → Option Unit
  | 0 => none
  | fuel + 1 =>
    match detectInner (streams 0) with
    | .broke => detect_message (fun i => streams (i + 1)) fuel
    | .ended => detect_message (fun i => streams (i + 1)) fuel

/-- The `for event in events` loop of `Receiver::receive_message`: duration 0
is skipped, `1..=89` pushes bit 0, `90..=199` pushes bit 1, `200..=1000` is
discarded as ambiguous, and `1001..` breaks returning the data collected so
far; `Err` events are skipped. -/
def receiveLoop : List EdgeEvent → List Nat → List Nat
  | [], data => data
  | .err :: rest, data => receiveLoop rest data
  | .ok t :: rest, data =>
    if t = 0 then receiveLoop rest data
    else if t ≤ 89 then receiveLoop rest (data ++ [0])
    else if t ≤ 199 then receiveLoop rest (data ++ [1])
    else if t ≤ 1000 then receiveLoop rest data
    else data

/-- `Receiver::receive_message` over one event list. -/
def receive_message (events : List EdgeEvent) : List Nat :=
  receiveLoop events []

/-- Claim C5's per-duration bit mapping: short band 1..=89 → 0, long band
90..=199 → 1, mid band 200..=1000 → no bit. -/
def pulseBit (d : Nat) : Option Nat :=
  if d ≤ 89 then some 0 else if d ≤ 199 then some 1 else none

/-! ## Helper lemmas -/

mutual
/-- Induction principle for `Node` through `Link` children. -/
theorem node_ind {P : Node → Prop}
    (h : ∀ f c l r, linkAll P l → linkAll P r → P (.mk f c l r)) :
    ∀ t : Node, P t
  | .mk f c l r => h f c l r (link_ind h l) (link_ind h r)
/-- Companion of `node_ind` for `Link`. -/
theorem link_ind {P : Node → Prop}
    (h : ∀ f c l r, linkAll P l → linkAll P r → P (.mk f c l r)) :
    ∀ l : Link, linkAll P l
  | .nil => trivial
  | .node n => node_ind h n
end

theorem popMin_eq_none {l : List Node} (h : popMin l = none) : l = [] := by
  cases l with
  | nil => rfl
  | cons n rest =>
    simp only [popMin] at h
    rcases hr : popMin rest with _ | ⟨m, rest2⟩ <;> rw [hr] at h
    · simp at h
    · by_cases hle : n.freq ≤ m.freq <;> simp [hle] at h

theorem popMin_length : ∀ {l : List Node} {n rest},
    popMin l = some (n, rest) → rest.length + 1 = l.length := by
  intro l
  induction l with
  | nil => intro n rest h; simp [popMin] at h
  | cons a as ih =>
    intro n rest h
    simp only [popMin] at h
    rcases hr : popMin as with _ | ⟨m, rest2⟩ <;> rw [hr] at h
    · obtain ⟨rfl, rfl⟩ := by simpa using h
      have := popMin_eq_none hr
      simp [this]
    · by_cases hle : a.freq ≤ m.freq <;> simp [hle] at h
      · obtain ⟨rfl, rfl⟩ := h
        simp
      · obtain ⟨rfl, rfl⟩ := h
        have := ih hr
        simp only [List.length_cons]
        omega

theorem popMin_perm : ∀ {l : List Node} {n rest},
    popMin l = some (n, rest) → l.Perm (n :: rest) := by
  intro l
  induction l with
  | nil => intro n rest h; simp [popMin] at h
  | cons a as ih =>
    intro n rest h
    simp only [popMin] at h
    rcases hr : popMin as with _ | ⟨m, rest2⟩ <;> rw [hr] at h
    · obtain ⟨rfl, rfl⟩ := by simpa using h
      have := popMin_eq_none hr
      simp [this]
    · by_cases hle : a.freq ≤ m.freq <;> simp [hle] at h
      · obtain ⟨rfl, rfl⟩ := h
        exact List.Perm.refl _
      · obtain ⟨rfl, rfl⟩ := h
        have hperm := ih hr
        exact ((hperm.cons a).trans (List.Perm.swap m a rest2))

theorem popMin_mem {l : List Node} {n rest} (h : popMin l = some (n, rest)) :
    n ∈ l :=
  (popMin_perm h).symm.subset (List.mem_cons_self n rest)

theorem popMin_rest_subset {l : List Node} {n rest} (h : popMin l = some (n, rest)) :
    ∀ x ∈ rest, x ∈ l :=
  fun _ hx => (popMin_perm h).symm.subset (List.mem_cons_of_mem n hx)

theorem popMin_min : ∀ {l : List Node} {n rest},
    popMin l = some (n, rest) → ∀ x ∈ rest, n.freq ≤ x.freq := by
  intro l
  induction l with
  | nil => intro n rest h; simp [popMin] at h
  | cons a as ih =>
    intro n rest h
    simp only [popMin] at h
    rcases hr : popMin as with _ | ⟨m, rest2⟩ <;> rw [hr] at h
    · obtain ⟨rfl, rfl⟩ := by simpa using h
      intro x hx
      simp at hx
    · by_cases hle : a.freq ≤ m.freq <;> simp [hle] at h
      · obtain ⟨rfl, rfl⟩ := h
        intro x hx
        rcases List.mem_cons.mp ((popMin_perm hr).mem_iff.mp hx) with rfl | hmem
        · exact hle
        · exact le_trans hle (ih hr x hmem)
      · obtain ⟨rfl, rfl⟩ := h
        intro x hx
        rcases List.mem_cons.mp hx with rfl | hmem
        · omega
        · exact ih hr x hmem

theorem build_loop_fuel_succ_some {f : Nat} {heap : List Node} {n1 n2 : Node}
    {rest1 rest2 : List Node} (hlen : 1 < heap.length)
    (h1 : popMin heap = some (n1, rest1)) (h2 : popMin rest1 = some (n2, rest2)) :
    build_loop_fuel (f + 1) heap = build_loop_fuel f
      (Node.mk (i32add n1.freq n2.freq) none (Link.node n1) (Link.node n2) :: rest2) := by
  simp only [build_loop_fuel, hlen, if_true, h1, h2]

theorem build_loop_fuel_succ_stop {f : Nat} {heap : List Node}
    (h : ¬ 1 < heap.length) : build_loop_fuel (f + 1) heap = heap := by
  simp only [build_loop_fuel]
  rw [if_neg h]

theorem popMin_some_of_long {heap : List Node} (hlen : 1 < heap.length) :
    ∃ n1 rest1 n2 rest2,
      popMin heap = some (n1, rest1) ∧ popMin rest1 = some (n2, rest2) := by
  rcases h1 : popMin heap with _ | ⟨n1, rest1⟩
  · rw [popMin_eq_none h1] at hlen
    simp at hlen
  · rcases h2 : popMin rest1 with _ | ⟨n2, rest2⟩
    · rw [popMin_eq_none h2] at h1
      have := popMin_length h1
      simp at this
      omega
    · exact ⟨n1, rest1, n2, rest2, rfl, h2⟩

theorem build_loop_fuel_preserves (P : Node → Prop)
    (hmerge : ∀ a b, P a → P b → a.freq ≤ b.freq →
      P (Node.mk (i32add a.freq b.freq) none (Link.node a) (Link.node b))) :
    ∀ fuel heap, (∀ n ∈ heap, P n) → ∀ n ∈ build_loop_fuel fuel heap, P n := by
  intro fuel
  induction fuel with
  | zero => intro heap hP; simpa [build_loop_fuel] using hP
  | succ f ih =>
    intro heap hP
    by_cases hlen : 1 < heap.length
    · obtain ⟨n1, rest1, n2, rest2, h1, h2⟩ := popMin_some_of_long hlen
      rw [build_loop_fuel_succ_some hlen h1 h2]
      apply ih
      intro n hn
      rcases List.mem_cons.mp hn with rfl | hmem
      · exact hmerge n1 n2 (hP n1 (popMin_mem h1))
          (hP n2 (popMin_rest_subset h1 _ (popMin_mem h2)))
          (popMin_min h1 n2 (popMin_mem h2))
      · exact hP n (popMin_rest_subset h1 _ (popMin_rest_subset h2 _ hmem))
    · rw [build_loop_fuel_succ_stop hlen]
      exact hP

theorem build_loop_fuel_length : ∀ (fuel : Nat) (heap : List Node),
    heap.length ≤ fuel + 1 → 0 < heap.length →
    (build_loop_fuel fuel heap).length = 1 := by
  intro fuel
  induction fuel with
  | zero =>
    intro heap hle hpos
    simp only [build_loop_fuel]
    omega
  | succ f ih =>
    intro heap hle hpos
    by_cases hlen : 1 < heap.length
    · obtain ⟨n1, rest1, n2, rest2, h1, h2⟩ := popMin_some_of_long hlen
      have hl1 := popMin_length h1
      have hl2 := popMin_length h2
      rw [build_loop_fuel_succ_some hlen h1 h2]
      apply ih
      · simp only [List.length_cons]; omega
      · simp
    · rw [build_loop_fuel_succ_stop hlen]
      omega

theorem build_tree_inv (P : Node → Prop)
    (hleaf : ∀ f c, P (Node.mk f (some c) Link.nil Link.nil))
    (hmerge : ∀ a b, P a → P b → a.freq ≤ b.freq →
      P (Node.mk (i32add a.freq b.freq) none (Link.node a) (Link.node b)))
    {fm : List (Char × Int)} {r : Node} (h : build_tree fm = some r) : P r := by
  rcases hp : popMin (build_loop
      (fm.map fun cf => Node.mk cf.2 (some cf.1) Link.nil Link.nil)) with _ | ⟨r0, rest⟩ <;>
    simp only [build_tree, hp] at h
  · exact absurd h (by simp)
  · have hr0 : r0 = r := by simpa using h
    subst hr0
    have hmem := popMin_mem hp
    refine build_loop_fuel_preserves P hmerge _ _ ?_ r0 hmem
    intro n hn
    rcases List.mem_map.mp hn with ⟨cf, _, rfl⟩
    exact hleaf cf.2 cf.1

theorem build_tree_total {fm : List (Char × Int)} (h : fm ≠ []) :
    ∃ r rest, popMin (build_loop
      (fm.map fun cf => Node.mk cf.2 (some cf.1) Link.nil Link.nil)) = some (r, rest) ∧
      build_tree fm = some r := by
  have hlen : (build_loop (fm.map fun cf => Node.mk cf.2 (some cf.1) Link.nil Link.nil)).length = 1 := by
    apply build_loop_fuel_length
    · simp
    · simp [List.length_pos]
      exact h
  rcases hp : popMin (build_loop
      (fm.map fun cf => Node.mk cf.2 (some cf.1) Link.nil Link.nil)) with _ | ⟨r, rest⟩
  · have := popMin_eq_none hp
    rw [this] at hlen
    simp at hlen
  · exact ⟨r, rest, hp, by simp only [build_tree, hp]⟩

theorem assign_codes_acc (t : Node) :
    ∀ m s, assign_codes t m s = m ++ assign_codes t [] s := by
  induction t using node_ind with
  | h f c l r ihl ihr =>
    intro m s
    cases c with
    | some c0 => simp [assign_codes]
    | none =>
      cases l with
      | nil =>
        cases r with
        | nil => simp [assign_codes]
        | node rt =>
          simp only [linkAll] at ihr
          simp only [assign_codes]
          rw [ihr m, ihr []]
      | node lt =>
        simp only [linkAll] at ihl
        cases r with
        | nil =>
          simp only [assign_codes]
          rw [ihl m]
        | node rt =>
          simp only [linkAll] at ihr
          simp only [assign_codes]
          rw [ihr (assign_codes lt m (s ++ [0])), ihr (assign_codes lt [] (s ++ [0])),
            ihl m]
          simp

theorem assign_codes_codepath (t : Node) :
    ∀ s c p, (c, p) ∈ assign_codes t [] s → ∃ q, p = s ++ q ∧ CodePath t c q := by
  induction t using node_ind with
  | h f ch l r ihl ihr =>
    intro s c p hmem
    cases ch with
    | some c0 =>
      simp [assign_codes] at hmem
      obtain ⟨rfl, rfl⟩ := hmem
      exact ⟨[], by simp, CodePath.here f c l r⟩
    | none =>
      cases l with
      | nil =>
        cases r with
        | nil => simp [assign_codes] at hmem
        | node rt =>
          simp only [linkAll] at ihr
          simp only [assign_codes] at hmem
          obtain ⟨q, rfl, hq⟩ := ihr (s ++ [1]) c p hmem
          exact ⟨1 :: q, by simp, CodePath.right f Link.nil rt c q hq⟩
      | node lt =>
        simp only [linkAll] at ihl
        cases r with
        | nil =>
          simp only [assign_codes] at hmem
          obtain ⟨q, rfl, hq⟩ := ihl (s ++ [0]) c p hmem
          exact ⟨0 :: q, by simp, CodePath.left f lt Link.nil c q hq⟩
        | node rt =>
          simp only [linkAll] at ihr
          simp only [assign_codes] at hmem
          rw [assign_codes_acc rt] at hmem
          rcases List.mem_append.mp hmem with hmem1 | hmem2
          · obtain ⟨q, rfl, hq⟩ := ihl (s ++ [0]) c p hmem1
            exact ⟨0 :: q, by simp, CodePath.left f lt (Link.node rt) c q hq⟩
          · obtain ⟨q, rfl, hq⟩ := ihr (s ++ [1]) c p hmem2
            exact ⟨1 :: q, by simp, CodePath.right f (Link.node lt) rt c q hq⟩

theorem mapGet_codepath {root : Node} {c : Char} {p : List Nat}
    (h : mapGet (assign_codes root [] []) c = some p) : CodePath root c p := by
  unfold mapGet at h
  rcases hf : (assign_codes root [] []).find? fun e => e.1 == c with _ | e <;>
    rw [hf] at h
  · simp at h
  · have hp : e.2 = p := by simpa using h
    have hbeq := List.find?_some hf
    have hc : e.1 = c := by
      have := of_decide_eq_true (by exact_mod_cast hbeq)
      exact this
    have hmem := List.mem_of_find?_eq_some hf
    have : (c, p) ∈ assign_codes root [] [] := by
      have he : e = (c, p) := by
        cases e
        simp only at hp hc
        rw [hp, hc]
      rw [he] at hmem
      exact hmem
    obtain ⟨q, hq, hcp⟩ := assign_codes_codepath root [] c p this
    simpa [hq] using hcp

theorem codepath_cons_char {n : Node} {c : Char} {b : Nat} {p : List Nat}
    (h : CodePath n c (b :: p)) : n.char = none := by
  cases h <;> rfl

theorem codepath_nil_char {n : Node} {c : Char} (h : CodePath n c []) :
    n.char = some c := by
  cases h
  rfl

theorem wfN_left {f : Int} {r : Link} {n0 : Node}
    (h : wfN (Node.mk f none (Link.node n0) r)) : wfN n0 := by
  cases r with
  | nil => simp [wfN] at h
  | node rt => exact h.1

theorem wfN_right {f : Int} {l : Link} {n0 : Node}
    (h : wfN (Node.mk f none l (Link.node n0))) : wfN n0 := by
  cases l with
  | nil => simp [wfN] at h
  | node lt => exact h.2

theorem decodeAux_codepath (root : Node) {n : Node} {c : Char} {p : List Nat}
    (hcp : CodePath n c p) :
    ∀ rest, wfN n → p ≠ [] →
      decodeAux root n (p ++ rest) = c :: decodeAux root root rest := by
  induction hcp with
  | here f c0 l r =>
    intro rest _ hne
    exact absurd rfl hne
  | left f n0 r c0 p0 hsub ih =>
    intro rest hwf _
    have hm : moveBit (Node.mk f none (Link.node n0) r) 0 = n0 := by
      simp [moveBit, Node.left]
    cases p0 with
    | nil =>
      simp only [List.cons_append, List.nil_append, decodeAux, hm,
        codepath_nil_char hsub]
      rfl
    | cons b p1 =>
      simp only [List.cons_append, decodeAux, hm, codepath_cons_char hsub]
      exact ih rest (wfN_left hwf) (by simp)
  | right f l n0 c0 p0 hsub ih =>
    intro rest hwf _
    have hm : moveBit (Node.mk f none l (Link.node n0)) 1 = n0 := by
      simp [moveBit, Node.right]
    cases p0 with
    | nil =>
      simp only [List.cons_append, List.nil_append, decodeAux, hm,
        codepath_nil_char hsub]
      rfl
    | cons b p1 =>
      simp only [List.cons_append, decodeAux, hm, codepath_cons_char hsub]
      exact ih rest (wfN_right hwf) (by simp)

theorem decode_concat (root : Node) (hwf : wfN root) (hchar : root.char = none) :
    ∀ (msg : List Char) (codes : List (List Nat)),
      List.Forall₂ (fun c p => CodePath root c p) msg codes →
      decode_string root codes.flatten = msg := by
  intro msg codes hall
  induction hall with
  | nil => simp [decode_string, decodeAux]
  | @cons a b l1 l2 hcp hrest ih =>
    have hne : b ≠ [] := by
      intro hb
      rw [hb] at hcp
      rw [codepath_nil_char hcp] at hchar
      exact Option.noConfusion hchar
    simp only [List.flatten_cons, decode_string] at ih ⊢
    rw [decodeAux_codepath root hcp l2.flatten hwf hne, ih]

theorem wseq_append (A : List Nat) :
    ∀ B k, wseq (A ++ B) k = wseq A k + wseq B (k + A.length) := by
  induction A with
  | nil => intro B k; simp [wseq]
  | cons a as ih =>
    intro B k
    simp only [List.cons_append, wseq, List.append_eq, ih, List.length_cons]
    have h1 : k + 1 + as.length = k + (as.length + 1) := by omega
    rw [h1, Nat.add_assoc]

theorem wseq_replicate_zero : ∀ n k, wseq (List.replicate n 0) k = 0 := by
  intro n
  induction n with
  | zero => intro k; simp [wseq]
  | succ m ih =>
    intro k
    simp only [List.replicate, wseq, ih]
    simp

theorem pushBits_spec : ∀ (code acc : List Nat) (ck bi k : Nat),
    bi = k % 8 → ck < U32MOD →
    pushBits code acc ck bi =
      (acc ++ code, (ck + wseq code k) % U32MOD, (k + code.length) % 8) := by
  intro code
  induction code with
  | nil =>
    intro acc ck bi k hbi hck
    simp [pushBits, wseq, Nat.mod_eq_of_lt hck, hbi]
  | cons b bs ih =>
    intro acc ck bi k hbi hck
    have hbi2 : (if bi = 7 then 0 else bi + 1) = (k + 1) % 8 := by
      subst hbi
      split <;> omega
    simp only [pushBits, hbi2]
    rw [ih (acc ++ [b]) (u32add ck (u32shl b bi)) ((k + 1) % 8) (k + 1) rfl
      (by simp [u32add, U32MOD]; omega)]
    refine Prod.ext ?_ (Prod.ext ?_ ?_)
    · simp
    · simp only [u32add, u32shl, U32MOD, wseq, hbi, Nat.shiftLeft_eq]
      generalize b * 2 ^ (k % 8) = t
      generalize wseq bs (k + 1) = w
      omega
    · simp only [List.length_cons]
      omega

theorem encodeBits_spec : ∀ (msg : List Char) (cm : List (Char × List Nat))
    (acc : List Nat) (ck bi k : Nat) (bits : List Nat) (ck2 bi2 : Nat),
    bi = k % 8 → ck < U32MOD →
    encodeBits msg cm acc ck bi = some (bits, ck2, bi2) →
    ∃ codes, List.Forall₂ (fun c p => mapGet cm c = some p) msg codes ∧
      bits = acc ++ codes.flatten ∧
      ck2 = (ck + wseq codes.flatten k) % U32MOD ∧
      bi2 = (k + codes.flatten.length) % 8 := by
  intro msg
  induction msg with
  | nil =>
    intro cm acc ck bi k bits ck2 bi2 hbi hck h
    simp only [encodeBits, Option.some.injEq] at h
    obtain ⟨rfl, rfl, rfl⟩ := h
    exact ⟨[], List.Forall₂.nil, by simp, by simp [wseq, Nat.mod_eq_of_lt hck],
      by simp [hbi]⟩
  | cons c cs ih =>
    intro cm acc ck bi k bits ck2 bi2 hbi hck h
    simp only [encodeBits] at h
    rcases hg : mapGet cm c with _ | code <;> rw [hg] at h
    · exact absurd h (by simp)
    · replace h : encodeBits cs cm (pushBits code acc ck bi).1
          (pushBits code acc ck bi).2.1 (pushBits code acc ck bi).2.2 =
          some (bits, ck2, bi2) := h
      rw [pushBits_spec code acc ck bi k hbi hck] at h
      obtain ⟨codes, hall, hbits, hck2, hbi2⟩ :=
        ih cm (acc ++ code) ((ck + wseq code k) % U32MOD) ((k + code.length) % 8)
          (k + code.length) bits ck2 bi2 rfl
          (Nat.mod_lt _ (by simp [U32MOD])) h
      refine ⟨code :: codes, List.Forall₂.cons hg hall, ?_, ?_, ?_⟩
      · simp [hbits]
      · rw [hck2, List.flatten_cons, wseq_append]
        generalize wseq code k = t
        generalize wseq codes.flatten (k + code.length) = w
        simp only [U32MOD]
        omega
      · rw [hbi2, List.flatten_cons, List.length_append]
        omega

theorem wgetd_succ (data : List Nat) (k : Nat) :
    wgetd data (k + 1) = wgetd data k + data.getD k 0 * 2 ^ (k % 8) := rfl

theorem wpow_append (A : List Nat) :
    ∀ B i, wpow (A ++ B) i = wpow A i + wpow B (i + A.length) := by
  induction A with
  | nil => intro B i; simp [wpow]
  | cons a as ih =>
    intro B i
    simp only [List.cons_append, wpow, List.append_eq, ih, List.length_cons]
    have h1 : i + 1 + as.length = i + (as.length + 1) := by omega
    rw [h1, Nat.add_assoc]

theorem checkFold_eq : ∀ (bs : List Nat) (i acc : Nat), acc < U32MOD →
    checkFold bs i acc = (acc + wpow bs i) % U32MOD := by
  intro bs
  induction bs with
  | nil =>
    intro i acc hacc
    simp [checkFold, wpow, Nat.mod_eq_of_lt hacc]
  | cons b bs2 ih =>
    intro i acc hacc
    simp only [checkFold, wpow]
    rw [ih (i + 1) (u32add acc (u32shl b i)) (Nat.mod_lt _ (by simp [u32add, U32MOD]))]
    simp only [u32add, u32shl, U32MOD, Nat.shiftLeft_eq]
    generalize b * 2 ^ i = t
    generalize wpow bs2 (i + 1) = w
    omega

theorem wpow_checkVec : ∀ (n ck : Nat),
    wpow ((List.range n).map fun j => (ck >>> j) &&& 1) 0 = ck % 2 ^ n := by
  intro n ck
  induction n with
  | zero => simp [wpow, Nat.mod_one]
  | succ m ih =>
    rw [List.range_succ, List.map_append, wpow_append, ih]
    simp only [List.map_cons, List.map_nil, wpow, List.length_map, List.length_range,
      Nat.zero_add]
    rw [Nat.shiftRight_eq_div_pow, Nat.and_one_is_mod, pow_succ, Nat.mod_mul]
    ring

theorem checkVec_length (ck : Nat) : (checkVec ck).length = 32 := by
  simp [checkVec]

theorem checkFold_checkVec {ck : Nat} (hck : ck < U32MOD) :
    checkFold (checkVec ck) 0 0 = ck := by
  rw [checkFold_eq (checkVec ck) 0 0 (by simp [U32MOD])]
  unfold checkVec
  rw [wpow_checkVec 32 ck]
  have h1 : (2 : Nat) ^ 32 = U32MOD := by simp [U32MOD]
  rw [h1, Nat.mod_eq_of_lt hck, Nat.zero_add, Nat.mod_eq_of_lt hck]

theorem sumWindows_zero (data : List Nat) : sumWindows data 0 = 0 := by
  simp [sumWindows, stepIdx]

theorem stepIdx_succ (W : Nat) :
    stepIdx (8 * (W + 1)) = stepIdx (8 * W) ++ [8 * W] := by
  simp only [stepIdx]
  have h1 : (8 * (W + 1) + 7) / 8 = W + 1 := by omega
  have h2 : (8 * W + 7) / 8 = W := by omega
  rw [h1, h2, List.range_succ, List.map_append]
  simp [Nat.mul_comm]

theorem sumWindows_step (data : List Nat) (W : Nat) :
    sumWindows data (8 * (W + 1)) =
      u32add (sumWindows data (8 * W)) (windowSum data (8 * W)) := by
  simp only [sumWindows, stepIdx_succ, List.foldl_append, List.foldl_cons,
    List.foldl_nil]

theorem sumWindows_wgetd : ∀ (W : Nat) (data : List Nat),
    sumWindows data (8 * W) = wgetd data (8 * W) % U32MOD := by
  intro W
  induction W with
  | zero =>
    intro data
    simp [sumWindows_zero, Nat.mul_zero, wgetd]
  | succ V ih =>
    intro data
    rw [sumWindows_step, ih]
    rw [(by omega : 8 * (V + 1) = 8 * V + 7 + 1), wgetd_succ]
    rw [(by omega : 8 * V + 7 = 8 * V + 6 + 1), wgetd_succ]
    rw [(by omega : 8 * V + 6 = 8 * V + 5 + 1), wgetd_succ]
    rw [(by omega : 8 * V + 5 = 8 * V + 4 + 1), wgetd_succ]
    rw [(by omega : 8 * V + 4 = 8 * V + 3 + 1), wgetd_succ]
    rw [(by omega : 8 * V + 3 = 8 * V + 2 + 1), wgetd_succ]
    rw [(by omega : 8 * V + 2 = 8 * V + 1 + 1), wgetd_succ]
    rw [(by omega : 8 * V + 1 = 8 * V + 0 + 1), wgetd_succ]
    simp only [Nat.add_assoc]
    norm_num
    simp only [Nat.mul_add_mod, Nat.mul_mod_right]
    norm_num
    simp only [windowSum, List.range_succ, List.range_zero, List.nil_append,
      List.foldl_append, List.foldl_cons, List.foldl_nil]
    simp only [u32add, u32shl, U32MOD, Nat.shiftLeft_eq, Nat.add_zero]
    norm_num
    omega

theorem wgetd_eq_wseq (A : List Nat) :
    ∀ suffix, wgetd (A ++ suffix) A.length = wseq A 0 := by
  induction A using List.reverseRecOn with
  | nil => intro suffix; simp [wgetd, wseq]
  | append_singleton A a ih =>
    intro suffix
    have hlen : (A ++ [a]).length = A.length + 1 := by simp
    rw [hlen, wgetd_succ, List.append_assoc]
    have hd : (A ++ ([a] ++ suffix)).getD A.length 0 = a := by
      rw [List.getD_eq_getElem?_getD, List.getElem?_append]
      simp
    rw [hd, ih ([a] ++ suffix), wseq_append]
    simp [wseq]

theorem validate_roundtrip (bits : List Nat) (ck : Nat)
    (hck : ck = wseq bits 0 % U32MOD) (hck0 : ck ≠ 0) (hbl : bits ≠ []) :
    validate (bits ++ (List.replicate (8 - bits.length % 8) 0 ++ checkVec ck)) =
      (true, some 0) := by
  have hckM : ck < U32MOD := by
    rw [hck]
    exact Nat.mod_lt _ (by simp [U32MOD])
  have hblpos : 0 < bits.length := List.length_pos.mpr hbl
  set pad := 8 - bits.length % 8 with hpad
  have hlen8 : (bits.length + pad) % 8 = 0 := by omega
  have hlenge : 8 ≤ bits.length + pad := by omega
  have hassoc : bits ++ (List.replicate pad 0 ++ checkVec ck) =
      (bits ++ List.replicate pad 0) ++ checkVec ck := by
    simp [List.append_assoc]
  have hlen2 : (bits ++ List.replicate pad 0).length = bits.length + pad := by
    simp
  have hlen : (bits ++ (List.replicate pad 0 ++ checkVec ck)).length =
      bits.length + pad + 32 := by
    simp [checkVec_length]
    omega
  have h40 : ¬ ((bits ++ (List.replicate pad 0 ++ checkVec ck)).length < 40) := by
    rw [hlen]
    omega
  have hL : (bits ++ (List.replicate pad 0 ++ checkVec ck)).length - 32 =
      bits.length + pad := by
    rw [hlen]
    omega
  have hwseq : wgetd (bits ++ (List.replicate pad 0 ++ checkVec ck))
      (bits.length + pad) = wseq bits 0 := by
    rw [hassoc, ← hlen2, wgetd_eq_wseq, wseq_append, wseq_replicate_zero]
    simp
  have hsum : sumWindows (bits ++ (List.replicate pad 0 ++ checkVec ck))
      (bits.length + pad) = ck := by
    obtain ⟨W, hW⟩ : ∃ W, bits.length + pad = 8 * W := ⟨(bits.length + pad) / 8, by omega⟩
    rw [hW, sumWindows_wgetd, ← hW, hwseq, ← hck]
  have hdrop : (bits ++ (List.replicate pad 0 ++ checkVec ck)).drop
      (bits.length + pad) = checkVec ck := by
    rw [hassoc, ← hlen2]
    exact List.drop_left _ _
  have hcheck : checkFold ((bits ++ (List.replicate pad 0 ++ checkVec ck)).drop
      (bits.length + pad)) 0 0 = ck := by
    rw [hdrop]
    exact checkFold_checkVec hckM
  simp only [validate]
  rw [if_neg h40, hL, hsum, hcheck]
  rw [if_neg (by simp [hck0])]
  have hcast : (ck : Rat) ≠ 0 := Nat.cast_ne_zero.mpr hck0
  rw [min_self, max_self, div_self hcast]
  norm_num

theorem forall2_mem_right {α β : Type} {R : α → β → Prop} :
    ∀ {l1 : List α} {l2 : List β}, List.Forall₂ R l1 l2 →
      ∀ b ∈ l2, ∃ a ∈ l1, R a b := by
  intro l1 l2 h
  induction h with
  | nil => intro b hb; simp at hb
  | @cons x y xs ys hR hrest ih =>
    intro b hb
    rcases List.mem_cons.mp hb with rfl | hb2
    · exact ⟨x, List.mem_cons_self x xs, hR⟩
    · obtain ⟨a, ha, hr⟩ := ih b hb2
      exact ⟨a, List.mem_cons_of_mem x ha, hr⟩

theorem wfN_leaf (f : Int) (c : Char) : wfN (Node.mk f (some c) Link.nil Link.nil) := by
  simp [wfN]

theorem wfN_merge (a b : Node) (ha : wfN a) (hb : wfN b) (f : Int) :
    wfN (Node.mk f none (Link.node a) (Link.node b)) := ⟨ha, hb⟩

theorem build_tree_wf {fm : List (Char × Int)} {r : Node}
    (h : build_tree fm = some r) : wfN r :=
  build_tree_inv wfN (fun f c => wfN_leaf f c)
    (fun a b ha hb _ => wfN_merge a b ha hb _) h

theorem encode_unfold {msg : List Char} {t2 : HuffTree} {stream : List Nat}
    {root : Node} {bits : List Nat} {ck bi : Nat}
    (hbuild : build_tree (create_frequency_map msg) = some root)
    (hbits : encodeBits msg (assign_codes root [] []) [] 0 0 = some (bits, ck, bi))
    (henc : HuffTree.new.encode msg = some (t2, stream)) :
    t2 = ⟨Link.node root, 8 - bits.length % 8⟩ ∧
      stream = bits ++ List.replicate (8 - bits.length % 8) 0 ++ checkVec ck := by
  simp only [HuffTree.encode, hbuild, encode_string, hbits, Option.some.injEq,
    Prod.mk.injEq] at henc
  obtain ⟨h1, h2⟩ := henc
  exact ⟨h1.symm, h2.symm⟩

/-! ## Claim theorems -/

/-- C1 (amended): for every message for which the accumulated 32-bit checksum
`ck` of the encoded payload is nonzero, `HuffTree::encode` on a fresh session
followed by `HuffTree::decode` on the same session returns the "Validated
message" result carrying exactly the original message with fidelity error
exactly 0.  (The claim as stated, over every non-empty message, is refuted by
any single-symbol message: its only code is empty, the checksum is 0, and
`validate` computes `1.0 - 0.0/0.0`, a NaN that fails the tolerance test, so
`decode` reports invalid data — see the counterexample theorem.) -/
theorem huffman_roundtrip_validated (msg : List Char) (t2 : HuffTree)
    (stream : List Nat) (root : Node) (bits : List Nat) (ck bi : Nat)
    (hbuild : build_tree (create_frequency_map msg) = some root)
    (hbits : encodeBits msg (assign_codes root [] []) [] 0 0 = some (bits, ck, bi))
    (hck0 : ck ≠ 0)
    (henc : HuffTree.new.encode msg = some (t2, stream)) :
    t2.decode stream = some (DecodeResult.validated msg (some 0)) := by
  obtain ⟨ht2, hstream⟩ := encode_unfold hbuild hbits henc
  obtain ⟨codes, hall, hbitseq, hckeq, -⟩ :=
    encodeBits_spec msg (assign_codes root [] []) [] 0 0 0 bits ck bi rfl
      (by simp [U32MOD]) hbits
  simp only [List.nil_append] at hbitseq
  have hck : ck = wseq bits 0 % U32MOD := by
    rw [hckeq, hbitseq, Nat.zero_add]
  have hbl : bits ≠ [] := by
    intro h0
    rw [h0] at hck
    simp [wseq, U32MOD] at hck
    exact hck0 hck
  have hchar : root.char = none := by
    have hfl : codes.flatten ≠ [] := by rw [← hbitseq]; exact hbl
    have hex : ∃ code ∈ codes, code ≠ [] := by
      by_contra hcon
      push_neg at hcon
      exact hfl (List.flatten_eq_nil_iff.mpr hcon)
    obtain ⟨code, hmem, hcne⟩ := hex
    obtain ⟨c, hcmem, hget⟩ := forall2_mem_right hall code hmem
    have hcp := mapGet_codepath hget
    cases code with
    | nil => exact absurd rfl hcne
    | cons b p => exact codepath_cons_char hcp
  have hwf : wfN root := build_tree_wf hbuild
  have hall2 : List.Forall₂ (fun c p => CodePath root c p) msg codes :=
    List.Forall₂.imp (fun a b h => mapGet_codepath h) hall
  subst ht2
  subst hstream
  have hval := validate_roundtrip bits ck hck hck0 hbl
  rw [← List.append_assoc] at hval
  have hlen : (bits ++ List.replicate (8 - bits.length % 8) 0 ++ checkVec ck).length =
      bits.length + (8 - bits.length % 8) + 32 := by
    simp [checkVec_length]
    omega
  have htake : (bits ++ List.replicate (8 - bits.length % 8) 0 ++ checkVec ck).length -
      (32 + (8 - bits.length % 8)) = bits.length := by
    rw [hlen]
    have : 0 < bits.length := List.length_pos.mpr hbl
    omega
  simp only [HuffTree.decode, hval, if_true, htake]
  rw [List.append_assoc, List.take_left]
  rw [hbitseq, decode_concat root hwf hchar msg codes hall2]

/-- Witness for C1's amended theorem at the concrete message "ab": all
hypotheses hold by computation and the round trip yields the validated
message with error 0. -/
theorem huffman_roundtrip_validated_witness :
    HuffTree.decode
      ⟨Link.node (Node.mk 2 none (Link.node (Node.mk 1 (some 'a') Link.nil Link.nil))
        (Link.node (Node.mk 1 (some 'b') Link.nil Link.nil))), 6⟩
      ([0, 1] ++ List.replicate 6 0 ++ checkVec 2) =
      some (DecodeResult.validated ['a', 'b'] (some 0)) :=
  huffman_roundtrip_validated ['a', 'b']
    ⟨Link.node (Node.mk 2 none (Link.node (Node.mk 1 (some 'a') Link.nil Link.nil))
      (Link.node (Node.mk 1 (some 'b') Link.nil Link.nil))), 6⟩
    ([0, 1] ++ List.replicate 6 0 ++ checkVec 2)
    (Node.mk 2 none (Link.node (Node.mk 1 (some 'a') Link.nil Link.nil))
      (Link.node (Node.mk 1 (some 'b') Link.nil Link.nil)))
    [0, 1] 2 2 (by rfl) (by rfl) (by decide) (by rfl)

/-- Counterexample to C1 as stated: the non-empty message "a" encodes (with the
degenerate empty code) to 8 padding zeros plus 32 zero checksum bits, and
`decode` on the same session returns the invalid-data result with a NaN error
(the 0/0 branch of `validate`), not a validated message with error 0. -/
theorem huffman_roundtrip_counterexample :
    HuffTree.new.encode ['a'] =
      some (⟨Link.node (Node.mk 1 (some 'a') Link.nil Link.nil), 8⟩,
        List.replicate 40 0) ∧
    HuffTree.decode ⟨Link.node (Node.mk 1 (some 'a') Link.nil Link.nil), 8⟩
      (List.replicate 40 0) = some (DecodeResult.invalid none) :=
  ⟨rfl, rfl⟩

/-- C7: `HuffTree::validate` on any input of fewer than 40 bits returns
exactly `(false, 0.0)`. -/
theorem validate_short_input (data : List Nat) (h : data.length < 40) :
    validate data = (false, some 0) := by
  simp only [validate, if_pos h]

/-- Witness for C7 at a concrete 39-bit input. -/
theorem validate_short_input_witness :
    validate (List.replicate 39 1) = (false, some 0) :=
  validate_short_input (List.replicate 39 1) (by decide)

/-- C4 (amended): on a stream of at least 40 bits whose recomputed payload sum
and trailing check value are both 0, `HuffTree::validate` has no safe fallback:
it computes `1.0 - 0.0/0.0`, a NaN (modelled as `none`), the IEEE comparison
`NaN < 0.005` is false and the stream is reported invalid, so the result is
`(false, NaN)` — not the claimed valid result with error 0. -/
theorem validate_zero_sums (data : List Nat) (h40 : ¬ data.length < 40)
    (hsum : sumWindows data (data.length - 32) = 0)
    (hcheck : checkFold (data.drop (data.length - 32)) 0 0 = 0) :
    validate data = (false, none) := by
  simp only [validate, if_neg h40, hsum, hcheck]
  simp

/-- Witness for C4's amended theorem at the all-zero 40-bit stream. -/
theorem validate_zero_sums_witness :
    validate (List.replicate 40 0) = (false, none) :=
  validate_zero_sums (List.replicate 40 0) (by decide) (by rfl) (by rfl)

/-- Counterexample to C4 as stated: at the all-zero 40-bit stream (sum = 0 and
check = 0) `validate` returns `(false, NaN)` rather than a defined safe result
treating the stream as valid with error 0. -/
theorem validate_zero_sums_counterexample :
    validate (List.replicate 40 0) = (false, none) ∧
      validate (List.replicate 40 0) ≠ (true, some 0) := by
  constructor
  · rfl
  · intro h
    exact Bool.noConfusion (congrArg Prod.fst h)

theorem freq_single_aux (c : Char) : ∀ (m : Nat) (f : Int),
    ∃ g, List.foldl incrementChar [(c, f)] (List.replicate m c) = [(c, g)] := by
  intro m
  induction m with
  | zero => intro f; exact ⟨f, rfl⟩
  | succ k ih =>
    intro f
    simp only [List.replicate, List.foldl_cons, incrementChar, if_pos rfl]
    exact ih (i32add f 1)

theorem freq_map_single (c : Char) (n : Nat) (hn : 0 < n) :
    ∃ f, create_frequency_map (List.replicate n c) = [(c, f)] := by
  cases n with
  | zero => omega
  | succ k =>
    simp only [create_frequency_map, List.replicate, List.foldl_cons, incrementChar]
    exact freq_single_aux c k (i32add 0 1)

theorem encodeBits_single (c : Char) : ∀ n,
    encodeBits (List.replicate n c) [(c, [])] [] 0 0 = some ([], 0, 0) := by
  intro n
  have hget : mapGet [(c, [])] c = some [] := by simp [mapGet]
  induction n with
  | zero => rfl
  | succ k ih =>
    simp only [List.replicate, encodeBits, hget]
    exact ih

theorem checkVec_zero : checkVec 0 = List.replicate 32 0 := rfl

/-- C2 (amended): a message made of one distinct symbol repeated `n ≥ 1` times
still gets a defined (empty) code from the one-leaf tree, and `encode` succeeds:
the payload is empty, `padding` is stored as 8, and the stream is the 8 padding
zeros followed by the 32 zero checksum bits (40 zero bits in total).  But
`decode` on the same session does not reconstruct the message: both recomputed
sums are 0, `validate` hits the 0/0 NaN and the result is the invalid-data
report, not the original message. -/
theorem single_symbol_encode_decode (c : Char) (n : Nat) (hn : 0 < n)
    (t2 : HuffTree) (stream : List Nat)
    (henc : HuffTree.new.encode (List.replicate n c) = some (t2, stream)) :
    stream = List.replicate 40 0 ∧ t2.padding = 8 ∧
      t2.decode stream = some (DecodeResult.invalid none) := by
  obtain ⟨f, hfm⟩ := freq_map_single c n hn
  have hbuild : build_tree (create_frequency_map (List.replicate n c)) =
      some (Node.mk f (some c) Link.nil Link.nil) := by
    rw [hfm]
    rfl
  have hcodes : assign_codes (Node.mk f (some c) Link.nil Link.nil) [] [] =
      [(c, [])] := rfl
  simp only [HuffTree.encode, hbuild, encode_string, hcodes, encodeBits_single,
    Option.some.injEq, Prod.mk.injEq] at henc
  obtain ⟨ht2, hstream⟩ := henc
  have hstream2 : stream = List.replicate 40 0 := by
    rw [← hstream, checkVec_zero]
    rw [(by norm_num : (40 : Nat) = 8 + 32), List.replicate_add]
    simp
  subst ht2
  refine ⟨hstream2, by norm_num, ?_⟩
  rw [hstream2]
  rfl

/-- Witness for C2's amended theorem at the concrete message "aaaa". -/
theorem single_symbol_encode_decode_witness :
    List.replicate 40 (0 : Nat) = List.replicate 40 0 ∧
    (⟨Link.node (Node.mk 4 (some 'a') Link.nil Link.nil), 8⟩ : HuffTree).padding = 8 ∧
    HuffTree.decode ⟨Link.node (Node.mk 4 (some 'a') Link.nil Link.nil), 8⟩
      (List.replicate 40 0) = some (DecodeResult.invalid none) :=
  single_symbol_encode_decode 'a' 4 (by decide)
    ⟨Link.node (Node.mk 4 (some 'a') Link.nil Link.nil), 8⟩
    (List.replicate 40 0) (by rfl)

/-- Counterexample to C2 as stated: the single-symbol message "aaaa" encodes
successfully to 40 zero bits, but `decode` on the same session reports invalid
data (the 0/0 NaN path of `validate`) instead of reconstructing "aaaa". -/
theorem single_symbol_counterexample :
    HuffTree.new.encode ['a', 'a', 'a', 'a'] =
      some (⟨Link.node (Node.mk 4 (some 'a') Link.nil Link.nil), 8⟩,
        List.replicate 40 0) ∧
    HuffTree.decode ⟨Link.node (Node.mk 4 (some 'a') Link.nil Link.nil), 8⟩
      (List.replicate 40 0) = some (DecodeResult.invalid none) :=
  ⟨rfl, rfl⟩

/-- C6: after emitting the `len` payload code bits, `encode` computes
`padding = 8 - (len % 8)` — a full extra zero byte when `len` is already a
multiple of 8 — appends exactly that many zero bits, stores the padding on the
session object, then appends exactly 32 checksum bits least-significant-bit
first, so the stream has length `len + padding + 32`. -/
theorem encode_padding_structure (msg : List Char) (root : Node) (bits : List Nat)
    (ck bi : Nat)
    (hbuild : build_tree (create_frequency_map msg) = some root)
    (hbits : encodeBits msg (assign_codes root [] []) [] 0 0 = some (bits, ck, bi)) :
    HuffTree.new.encode msg = some (⟨Link.node root, 8 - bits.length % 8⟩,
      bits ++ List.replicate (8 - bits.length % 8) 0 ++ checkVec ck) ∧
    (bits.length % 8 = 0 → 8 - bits.length % 8 = 8) ∧
    (bits ++ List.replicate (8 - bits.length % 8) 0 ++ checkVec ck).length =
      bits.length + (8 - bits.length % 8) + 32 ∧
    ∀ i < 32, (checkVec ck).getD i 0 = (ck >>> i) % 2 := by
  refine ⟨?_, ?_, ?_, ?_⟩
  · simp only [HuffTree.encode, hbuild, encode_string, hbits]
  · intro h
    omega
  · simp [checkVec_length]
    omega
  · intro i hi
    simp only [checkVec, List.getD_eq_getElem?_getD, List.getElem?_map,
      List.getElem?_range hi, Option.map_some, Option.getD_some]
    exact Nat.and_one_is_mod _

/-- Witness for C6 at the concrete message "ab" (payload [0, 1], checksum 2,
padding 6). -/
theorem encode_padding_structure_witness :
    HuffTree.new.encode ['a', 'b'] =
      some (⟨Link.node (Node.mk 2 none
          (Link.node (Node.mk 1 (some 'a') Link.nil Link.nil))
          (Link.node (Node.mk 1 (some 'b') Link.nil Link.nil))),
        8 - ([0, 1] : List Nat).length % 8⟩,
        [0, 1] ++ List.replicate (8 - ([0, 1] : List Nat).length % 8) 0 ++ checkVec 2) ∧
    (([0, 1] : List Nat).length % 8 = 0 → 8 - ([0, 1] : List Nat).length % 8 = 8) ∧
    ([0, 1] ++ List.replicate (8 - ([0, 1] : List Nat).length % 8) 0 ++
      checkVec 2).length = ([0, 1] : List Nat).length +
      (8 - ([0, 1] : List Nat).length % 8) + 32 ∧
    ∀ i < 32, (checkVec 2).getD i 0 = (2 >>> i) % 2 :=
  encode_padding_structure ['a', 'b']
    (Node.mk 2 none (Link.node (Node.mk 1 (some 'a') Link.nil Link.nil))
      (Link.node (Node.mk 1 (some 'b') Link.nil Link.nil)))
    [0, 1] 2 2 (by rfl) (by rfl)

/-- C8: for every non-empty frequency table `build_tree` returns a root whose
every internal node was made from the two popped lowest-frequency nodes `a`
then `b`: its frequency is the (wrapping i32) sum `a.freq + b.freq`, its left
child is `a`, its right child is `b`, and the right sibling always has the
larger-or-equal frequency; `goodNode` states exactly this shape recursively. -/
theorem build_tree_goodNode (fm : List (Char × Int)) (hne : fm ≠ []) :
    ∃ root, build_tree fm = some root ∧ goodNode root := by
  obtain ⟨r, rest, hp, hbt⟩ := build_tree_total hne
  refine ⟨r, hbt, ?_⟩
  exact build_tree_inv goodNode (fun f c => by simp [goodNode])
    (fun a b ha hb hle => ⟨hle, rfl, ha, hb⟩) hbt

/-- Witness for C8 at the concrete frequency table of "abb". -/
theorem build_tree_goodNode_witness :
    ∃ root, build_tree [('a', 1), ('b', 2)] = some root ∧ goodNode root :=
  build_tree_goodNode [('a', 1), ('b', 2)] (by decide)

theorem codepath_prefix_eq {t : Node} {c1 : Char} {p1 : List Nat}
    (h1 : CodePath t c1 p1) :
    ∀ {c2 : Char} {p2 : List Nat}, CodePath t c2 p2 → p1 <+: p2 → c1 = c2 := by
  induction h1 with
  | here f c l r =>
    intro c2 p2 h2 hpre
    cases h2 with
    | here => rfl
  | left f n0 r c p0 hsub ih =>
    intro c2 p2 h2 hpre
    obtain ⟨s, hs⟩ := hpre
    cases h2 with
    | left f' n0' r' c' p2' hsub2 =>
      apply ih hsub2
      rw [List.cons_append] at hs
      exact ⟨s, by injection hs⟩
    | right f' l' n0' c' p2' hsub2 =>
      rw [List.cons_append] at hs
      injection hs with hhead _
      exact absurd hhead (by decide)
  | right f l n0 c p0 hsub ih =>
    intro c2 p2 h2 hpre
    obtain ⟨s, hs⟩ := hpre
    cases h2 with
    | right f' l' n0' c' p2' hsub2 =>
      apply ih hsub2
      rw [List.cons_append] at hs
      exact ⟨s, by injection hs⟩
    | left f' n0' r' c' p2' hsub2 =>
      rw [List.cons_append] at hs
      injection hs with hhead _
      exact absurd hhead (by decide)

/-- C9: the code table `assign_codes` derives from a tree built from any
frequency table with at least two distinct symbols is prefix-free: the code of
one symbol never extends to the code of a different symbol. -/
theorem huffman_codes_incomparable (fm : List (Char × Int))
    (hnd : (fm.map Prod.fst).Nodup) (hlen : 2 ≤ fm.length)
    (root : Node) (hb : build_tree fm = some root)
    (c1 c2 : Char) (p1 p2 : List Nat) (hne : c1 ≠ c2)
    (hm1 : mapGet (assign_codes root [] []) c1 = some p1)
    (hm2 : mapGet (assign_codes root [] []) c2 = some p2) :
    ¬ p1 <+: p2 := by
  intro hpre
  exact hne (codepath_prefix_eq (mapGet_codepath hm1) (mapGet_codepath hm2) hpre)

/-- Witness for C9 at the frequency table of "ab": the codes of 'a' and 'b' are
[0] and [1], and neither extends the other. -/
theorem huffman_codes_incomparable_witness : ¬ ([0] : List Nat) <+: [1] :=
  huffman_codes_incomparable [('a', 1), ('b', 1)] (by decide) (by decide)
    (Node.mk 2 none (Link.node (Node.mk 1 (some 'a') Link.nil Link.nil))
      (Link.node (Node.mk 1 (some 'b') Link.nil Link.nil)))
    (by rfl) 'a' 'b' [0] [1] (by decide) (by rfl) (by rfl)

theorem foldl_decodeStepSpec (root : Node) : ∀ (bits : List Nat) (node : Node)
    (acc : List Char),
    (bits.foldl (decodeStepSpec root) (node, acc)).2 = acc ++ decodeAux root node bits := by
  intro bits
  induction bits with
  | nil => intro node acc; simp [decodeAux]
  | cons b rest ih =>
    intro node acc
    have hfold : decodeStepSpec root (node, acc) b =
        match (moveBit node b).char with
        | some c => (root, acc ++ [c])
        | none => (moveBit node b, acc) := rfl
    simp only [List.foldl_cons, hfold]
    rcases hc : (moveBit node b).char with _ | c
    · simp only [decodeAux, hc]
      exact ih (moveBit node b) acc
    · simp only [decodeAux, hc]
      rw [ih root (acc ++ [c])]
      simp

/-- C10: for every bit sequence (any `u32` values) and every session tree with
a root, `decode_string` behaves exactly as the claim describes and never fails:
it equals the total state machine `decode_string_spec`, written from the
claim's words, in which a bit pointing at a missing child leaves the traversal
position unchanged, a symbol is emitted exactly when the node reached after the
move holds a character, and the traversal then resets to the root. -/
theorem decode_string_eq_spec (root : Node) (bits : List Nat) :
    decode_string root bits = decode_string_spec root bits := by
  unfold decode_string decode_string_spec
  rw [foldl_decodeStepSpec root bits root []]
  simp

/-- C3 evidence: `Receiver::detect_message` never returns, for every event
source and every number of outer-loop iterations: the `break` on an
initiation-band duration exits only the inner `for`, and the outer `loop` has
no exit, so no amount of fuel makes the function return. -/
theorem detect_message_never_returns (streams : Nat → List EdgeEvent) :
    ∀ fuel, detect_message streams fuel = none := by
  intro fuel
  induction fuel generalizing streams with
  | zero => rfl
  | succ f ih =>
    simp only [detect_message]
    cases h : detectInner (streams 0) <;> exact ih _

theorem receiveLoop_maps (term : Nat) (rest : List EdgeEvent) (hterm : 1001 ≤ term) :
    ∀ (ds : List Nat) (acc : List Nat), (∀ d ∈ ds, 1 ≤ d ∧ d ≤ 1000) →
      receiveLoop (ds.map EdgeEvent.ok ++ EdgeEvent.ok term :: rest) acc =
        acc ++ ds.filterMap pulseBit := by
  intro ds
  induction ds with
  | nil =>
    intro acc _
    have h0 : ¬ (term = 0) := by omega
    have h89 : ¬ (term ≤ 89) := by omega
    have h199 : ¬ (term ≤ 199) := by omega
    have h1000 : ¬ (term ≤ 1000) := by omega
    simp only [List.map_nil, List.nil_append, receiveLoop, if_neg h0, if_neg h89,
      if_neg h199, if_neg h1000, List.filterMap_nil, List.append_nil]
  | cons d ds2 ih =>
    intro acc hall
    have hd := hall d (List.mem_cons_self d ds2)
    have htail : ∀ x ∈ ds2, 1 ≤ x ∧ x ≤ 1000 :=
      fun x hx => hall x (List.mem_cons_of_mem d hx)
    have h0 : ¬ (d = 0) := by omega
    simp only [List.map_cons, List.cons_append, receiveLoop, List.append_eq,
      if_neg h0]
    by_cases h89 : d ≤ 89
    · rw [if_pos h89, ih (acc ++ [0]) htail]
      simp [pulseBit, h89, List.filterMap_cons]
    · rw [if_neg h89]
      by_cases h199 : d ≤ 199
      · rw [if_pos h199, ih (acc ++ [1]) htail]
        simp [pulseBit, h89, h199, List.filterMap_cons]
      · rw [if_neg h199, if_pos hd.2, ih acc htail]
        simp [pulseBit, h89, h199, List.filterMap_cons]

/-- C5 evidence: `Receiver::receive_message` alone classifies a duration
sequence exactly as the claim says: each short-band duration (1..=89) yields
bit 0, each long-band duration (90..=199) yields bit 1, each mid-band duration
(200..=1000) yields no bit, in order, and a termination-band duration
(1001..) stops it.  (The full pulse decoder of the claim — `detect_message`
followed by `receive_message` — never produces these bits because
`detect_message` never returns; see `detect_message_never_returns`.) -/
theorem receive_message_pulse_bits (ds : List Nat) (term : Nat)
    (rest : List EdgeEvent) (hds : ∀ d ∈ ds, 1 ≤ d ∧ d ≤ 1000)
    (hterm : 1001 ≤ term) :
    receive_message (ds.map EdgeEvent.ok ++ EdgeEvent.ok term :: rest) =
      ds.filterMap pulseBit := by
  unfold receive_message
  rw [receiveLoop_maps term rest hterm ds [] hds]
  simp

/-- Witness for C5's theorem at a concrete duration sequence: initiationless
stream short 10 → 0, long 100 → 1, mid 250 → no bit, termination 1200. -/
theorem receive_message_pulse_bits_witness :
    receive_message ([10, 100, 250].map EdgeEvent.ok ++ EdgeEvent.ok 1200 :: []) =
      [0, 1] :=
  receive_message_pulse_bits [10, 100, 250] 1200 [] (by decide) (by decide)
